import Mathlib

/-!
# Verification of the OpenCowork agentic tool-calling orchestrator

A shallow embedding of the capability sandbox, tool dispatcher, context
manager and agent loop of `src-tauri/src/commands/mod.rs`, together with
theorems settling the specification claims about them.

Conventions of the embedding:
* Filesystem paths are represented by their `std::path` component lists
  (`RawComp` before normalization, `NComp` after), on a Unix-style component
  alphabet (`Component::Prefix` is Windows-only and not modelled).
* Rust `String` values stay Lean `String`s; helpers that Rust provides
  (`trim`, `to_lowercase`, `split_whitespace`, ...) are re-implemented on
  character lists.  `to_lowercase`/`eq_ignore_ascii_case` are modelled with
  ASCII lowering.
* Fallible Rust functions returning `Result<T, String>` become
  `Except String T`.
-/

set_option autoImplicit false

namespace OpenCowork

/-! ## Constants (src-tauri/src/commands/mod.rs, lines 48-62) -/

def TOOL_MODE_UNSET_ERROR : String := "TOOLS_MODE_UNSET"

def REQUEST_CANCELLED_ERROR : String := "REQUEST_CANCELLED"

/-- The constant `TOOL_ERROR_PREFIX` of the source. -/
def TOOL_ERROR_TAG : String := "TOOL_ERROR:"

def MAX_TOOL_LOOPS : Nat := 999

def MAX_REPEAT_TOOL_LOOPS : Nat := 3

def MODEL_MAX_RETRIES : Nat := 2

def MIN_HISTORY_MESSAGES_BEFORE_COMPRESSION : Nat := 14

def DEFAULT_MAX_READ_BYTES : Nat := 200000

/-! ## Path model

`normalize_path` walks `Path::components()`; we model a raw path as the list
of its components.  A normalized path (`PathBuf` built by `normalize_path`)
only ever contains `RootDir` and `Normal` components, modelled by `NComp`. -/

/-- A component of a raw (not yet normalized) path, as produced by
`std::path::Path::components()` on Unix. -/
inductive RawComp
  | rootDir
  | curDir
  | parentDir
  | normal (s : String)
  deriving DecidableEq, Repr

/-- A component of a normalized path (output alphabet of `normalize_path`). -/
inductive NComp
  | root
  | norm (s : String)
  deriving DecidableEq, Repr

/-- `PathBuf::push` of a single component: pushing the root component `/`
replaces the whole path (an absolute path replaces the receiver), pushing a
normal component appends it. -/
def pushComp : List NComp → NComp → List NComp
  | _, NComp.root => [NComp.root]
  | l, NComp.norm s => l ++ [NComp.norm s]

/-- `PathBuf::pop`: truncates to the parent; the root path and the empty path
have no parent and are left unchanged. -/
def popPath : List NComp → List NComp
  | [] => []
  | [NComp.root] => [NComp.root]
  | l => l.dropLast

/-- `normalize_path` (mod.rs:2903): lexical normalization, folding components
into a fresh `PathBuf`, skipping `.`, popping on `..`. -/
def normalize_path (p : List RawComp) : List NComp :=
  p.foldl
    (fun acc c =>
      match c with
      | RawComp.rootDir => pushComp acc NComp.root
      | RawComp.curDir => acc
      | RawComp.parentDir => popPath acc
      | RawComp.normal s => pushComp acc (NComp.norm s))
    []

def ncompToRaw : NComp → RawComp
  | NComp.root => RawComp.rootDir
  | NComp.norm s => RawComp.normal s

/-- The components of an already-normalized `PathBuf`, viewed again as a raw
path (used when a normalized path is fed back into `normalize_path` or
joined to further components). -/
def normPathToRaw (p : List NComp) : List RawComp :=
  p.map ncompToRaw

/-- `Path::is_absolute` on Unix: the path has a root. -/
def rawIsAbsolute : List RawComp → Bool
  | RawComp.rootDir :: _ => true
  | _ => false

/-- Rendering of a normalized path for messages (`Path::display`). -/
def displayPath (p : List NComp) : String :=
  p.foldl
    (fun acc c =>
      match c with
      | NComp.root => "/"
      | NComp.norm s => if acc = "" ∨ acc = "/" then acc ++ s else acc ++ "/" ++ s)
    ""

/-- The tool access mode.  `build_tool_access` normalizes the configured mode
string through `normalize_tool_mode` (mod.rs:2840), so exactly these three
values occur. -/
inductive ToolMode
  | unset
  | whitelist
  | allow_all
  deriving DecidableEq, Repr

/-- `ToolAccess` (mod.rs:837).  `allowed_dirs` and `base_dir` are already
normalized by `build_tool_access`. -/
structure ToolAccess where
  mode : ToolMode
  allowed_commands : List String
  allowed_dirs : List (List NComp)
  base_dir : List NComp
  tasks_dir : List NComp
  deriving Repr

/-- `resolve_path` (mod.rs:2919): absolute inputs pass through, relative
inputs are joined to `base_dir`; the result is lexically normalized.
(`path.trim()` happens before the string is parsed into components and is
absorbed into the component representation.) -/
def resolve_path (access : ToolAccess) (path : List RawComp) : List NComp :=
  if rawIsAbsolute path then normalize_path path
  else normalize_path (normPathToRaw access.base_dir ++ path)

/-- `path_is_allowed` (mod.rs:2930). -/
def path_is_allowed (access : ToolAccess) (path : List RawComp) : Bool :=
  if access.mode = ToolMode.allow_all then true
  else access.allowed_dirs.any (fun dir => dir.isPrefixOf (normalize_path path))

/-- `ensure_path_allowed` (mod.rs:2941). -/
def ensure_path_allowed (access : ToolAccess) (path : List RawComp) :
    Except String (List NComp) :=
  let resolved := resolve_path access path
  if access.mode = ToolMode.whitelist ∧
      path_is_allowed access (normPathToRaw resolved) = false then
    Except.error ("路径不在允许范围内: " ++ displayPath resolved)
  else Except.ok resolved

/-- The authorization prelude shared by the file tools (`read_file_tool`,
`write_file_tool`, `edit_file_tool`, ... mod.rs:3275 ff.): an unset mode is
rejected with the distinguished `TOOLS_MODE_UNSET` error before
`ensure_path_allowed` runs. -/
def resolve_and_authorize_path (access : ToolAccess) (path : List RawComp) :
    Except String (List NComp) :=
  if access.mode = ToolMode.unset then Except.error TOOL_MODE_UNSET_ERROR
  else ensure_path_allowed access path

/-- Invariant of normalized paths: a root component occurs only at the head. -/
def RootOnlyAtHead (l : List NComp) : Prop :=
  ∀ c ∈ l.drop 1, c ≠ NComp.root

/-! ## String helpers (Rust std re-implementations on character lists) -/

/-- Rust `str::trim_start`. -/
def rustTrimStart (s : String) : String :=
  String.mk (s.toList.dropWhile Char.isWhitespace)

def trimChars (l : List Char) : List Char :=
  ((l.dropWhile Char.isWhitespace).reverse.dropWhile Char.isWhitespace).reverse

/-- Rust `str::trim`. -/
def rustTrim (s : String) : String :=
  String.mk (trimChars s.toList)

/-- Rust `str::to_lowercase`, modelled with ASCII lowering. -/
def lowerStr (s : String) : String :=
  String.mk (s.toList.map Char.toLower)

def startsWithChars (l p : List Char) : Bool :=
  p.isPrefixOf l

/-- Rust `str::starts_with` on strings. -/
def startsWithStr (s p : String) : Bool :=
  startsWithChars s.toList p.toList

def strContainsChar (s : String) (c : Char) : Bool :=
  s.toList.contains c

def listContainsSub (s pat : List Char) : Bool :=
  if pat.isPrefixOf s then true
  else
    match s with
    | [] => false
    | _ :: rest => listContainsSub rest pat

/-- Rust `str::contains` for a substring pattern. -/
def containsSubstr (s pat : String) : Bool :=
  listContainsSub s.toList pat.toList

/-! ## Command authorization (C2)

`extract_command_token` (mod.rs:3174) and `command_allowed` (mod.rs:3184).
The glob matching they delegate to comes from the external `glob` crate
(`glob::Pattern` with default `MatchOptions`), re-implemented below. -/

/-- First maximal run of non-whitespace characters
(`split_whitespace().next().unwrap_or("")`). -/
def firstWordChars (l : List Char) : List Char :=
  (l.dropWhile Char.isWhitespace).takeWhile (fun c => ¬ c.isWhitespace)

/-- `extract_command_token` (mod.rs:3174): honours a quoted first token.
`trimmed[1..=end]` keeps the characters strictly between the quotes. -/
def extract_command_token (command : String) : String :=
  let trimmed := command.toList.dropWhile Char.isWhitespace
  match trimmed with
  | '"' :: rest =>
    match rest.findIdx? (fun c => c = '"') with
    | some endIdx => String.mk (rest.take endIdx)
    | none => String.mk (firstWordChars trimmed)
  | _ => String.mk (firstWordChars trimmed)

/-- Rust `Path::file_name` on Unix: the last normal component; `None` when the
path ends in `..`, is a root, or is empty.  (Trailing `/` and `.` components
are ignored, as in `std::path`.) -/
def rustFileName (token : String) : Option String :=
  let parts := (token.toList.splitOn '/').filter
    (fun p => ¬ (p = [] ∨ p = ['.']))
  match parts.getLast? with
  | some p => if p = ['.', '.'] then none else some (String.mk p)
  | none => none

/-! ### The `glob` crate's `Pattern` (external dependency)

Modelled from the `glob` crate used by `command_allowed`: `Pattern::new`
compiles `?`, `*`, `**` and `[...]`/`[!...]` character classes, rejecting
more than two consecutive stars, a `**` that is not its own path component,
and an unclosed class.  `Pattern::matches` is `matches_with` under default
`MatchOptions` (case-sensitive; `*`/`?` may match the separator; no literal
leading-dot rule), specialized accordingly. -/

inductive GlobSpec
  | schar (c : Char)
  | srange (a b : Char)
  deriving DecidableEq, Repr

inductive GlobToken
  | gchar (c : Char)
  | anyChar
  | anySeq
  | anyRecSeq
  | anyWithin (specs : List GlobSpec)
  | anyExcept (specs : List GlobSpec)
  deriving DecidableEq, Repr

def parseCharSpecifiers : List Char → List GlobSpec
  | [] => []
  | a :: '-' :: b :: rest => GlobSpec.srange a b :: parseCharSpecifiers rest
  | c :: rest => GlobSpec.schar c :: parseCharSpecifiers rest

/-- `glob::Pattern::new`; `none` is `Err(PatternError)`.  The `prev` argument
tracks the character immediately before the current position (needed for the
`**`-is-a-whole-component check). -/
def globParseAux : Option Char → List Char → Option (List GlobToken)
  | _, [] => some []
  | _, '?' :: rest => (globParseAux (some '?') rest).map (GlobToken.anyChar :: ·)
  | _, '*' :: '*' :: '*' :: _ => none
  | prev, '*' :: '*' :: rest' =>
    if prev = none ∨ prev = some '/' then
      match rest' with
      | '/' :: rest'' => (globParseAux (some '/') rest'').map (GlobToken.anyRecSeq :: ·)
      | [] => some [GlobToken.anyRecSeq]
      | _ => none
    else none
  | _, '*' :: rest => (globParseAux (some '*') rest).map (GlobToken.anySeq :: ·)
  | _, '[' :: '!' :: c0 :: rest2 =>
    match (c0 :: rest2).tail.findIdx? (fun c => c = ']') with
    | some j =>
      let specs := parseCharSpecifiers ((c0 :: rest2).take (j + 1))
      (globParseAux (some ']') ((c0 :: rest2).drop (j + 2))).map (GlobToken.anyExcept specs :: ·)
    | none => none
  | _, '[' :: c0 :: rest2 =>
    if c0 = '!' then none
    else
      match rest2.findIdx? (fun c => c = ']') with
      | some j =>
        let specs := parseCharSpecifiers ((c0 :: rest2).take (j + 1))
        (globParseAux (some ']') (rest2.drop (j + 1))).map (GlobToken.anyWithin specs :: ·)
      | none => none
  | _, ['['] => none
  | _, c :: rest => (globParseAux (some c) rest).map (GlobToken.gchar c :: ·)
termination_by _ l => l.length
decreasing_by all_goals (simp_wf <;> try simp [List.length_drop]) <;> omega

def inCharSpecifiers (specs : List GlobSpec) (c : Char) : Bool :=
  specs.any fun sp =>
    match sp with
    | GlobSpec.schar c2 => c = c2
    | GlobSpec.srange a b => a ≤ c ∧ c ≤ b

inductive GlobMatchResult
  | matched
  | subNoMatch
  | entireNoMatch
  deriving DecidableEq, Repr

mutual

/-- `Pattern::matches_from` under default `MatchOptions`.  `follows` records
whether the position follows a path separator (or the start). -/
def matchesFrom (follows : Bool) (tokens : List GlobToken) (file : List Char) :
    GlobMatchResult :=
  match tokens, file with
  | [], f => if f.isEmpty then GlobMatchResult.matched else GlobMatchResult.subNoMatch
  | GlobToken.anySeq :: rest, f =>
    match matchesFrom follows rest f with
    | GlobMatchResult.subNoMatch => seqMarch follows false rest f
    | r => r
  | GlobToken.anyRecSeq :: rest, f =>
    match matchesFrom follows rest f with
    | GlobMatchResult.subNoMatch => seqMarch follows true rest f
    | r => r
  | _ :: _, [] => GlobMatchResult.entireNoMatch
  | GlobToken.anyChar :: rest, c :: f => matchesFrom (c = '/') rest f
  | GlobToken.anyWithin specs :: rest, c :: f =>
    if inCharSpecifiers specs c then matchesFrom (c = '/') rest f
    else GlobMatchResult.subNoMatch
  | GlobToken.anyExcept specs :: rest, c :: f =>
    if inCharSpecifiers specs c then GlobMatchResult.subNoMatch
    else matchesFrom (c = '/') rest f
  | GlobToken.gchar c2 :: rest, c :: f =>
    if c = c2 then matchesFrom (c = '/') rest f else GlobMatchResult.subNoMatch

/-- The march-up loop of `matches_from` for `*`/`**`: try the remaining
tokens after consuming each further character; `**` only retries at component
boundaries; an exhausted file falls through to the remaining tokens. -/
def seqMarch (follows : Bool) (isRec : Bool) (rest : List GlobToken)
    (file : List Char) : GlobMatchResult :=
  match file with
  | [] => matchesFrom follows rest []
  | c :: f =>
    let fs := (c = '/')
    if isRec ∧ fs = false then seqMarch fs isRec rest f
    else
      match matchesFrom fs rest f with
      | GlobMatchResult.subNoMatch => seqMarch fs isRec rest f
      | r => r

end

/-- `glob::Pattern::matches`. -/
def globMatches (tokens : List GlobToken) (s : String) : Bool :=
  matchesFrom true tokens s.toList = GlobMatchResult.matched

def globPatternNew (pattern : String) : Option (List GlobToken) :=
  globParseAux none pattern.toList

/-- One iteration of the entry loop of `command_allowed` (mod.rs:3195-3214):
does `entry` admit the (already lower-cased) token or its file-name form? -/
def entry_matches_command (token_lower base_lower entry : String) : Bool :=
  let trimmed := rustTrim entry
  if trimmed = "" then false
  else if trimmed = "*" then true
  else
    let pattern := lowerStr trimmed
    if strContainsChar pattern '*' ∨ strContainsChar pattern '?' then
      match globPatternNew pattern with
      | some toks => globMatches toks token_lower || globMatches toks base_lower
      | none => false
    else decide (pattern = token_lower) || decide (pattern = base_lower)

/-- `command_allowed` (mod.rs:3184). -/
def command_allowed (access : ToolAccess) (command : String) : Bool :=
  if access.mode = ToolMode.allow_all then true
  else
    let token := extract_command_token command
    let token_lower := lowerStr token
    let base_lower := lowerStr ((rustFileName token).getD token)
    access.allowed_commands.any (entry_matches_command token_lower base_lower)

/-! ## Tool failure classification (C10)

`parse_exit_code` (mod.rs:3648) and `is_tool_failure` (mod.rs:3658). -/

/-- Rust `str::lines().next()`: the first line, with a `\r` stripped only when
it preceded a `\n`; `None` on the empty string. -/
def firstLineChars : List Char → Option (List Char)
  | [] => none
  | l =>
    let line := l.takeWhile (fun c => c ≠ '\n')
    let hadNewline := decide (line.length < l.length)
    some (if hadNewline ∧ line.getLast? = some '\r' then line.dropLast else line)

def digitVal (c : Char) : Nat := c.toNat - '0'.toNat

/-- Digit-string parsing shared by `parseI32`: all characters must be ASCII
digits and there must be at least one. -/
def parseNatDigits : List Char → Option Nat
  | [] => none
  | l =>
    if l.all (fun c => c.isDigit) then
      some (l.foldl (fun acc c => acc * 10 + digitVal c) 0)
    else none

/-- Rust `str::parse::<i32>()`: optional sign, decimal digits, and an
overflow check against the `i32` range. -/
def parseI32 (l : List Char) : Option Int :=
  match l with
  | '+' :: rest =>
    (parseNatDigits rest).bind fun n =>
      if n ≤ 2147483647 then some (Int.ofNat n) else none
  | '-' :: rest =>
    (parseNatDigits rest).bind fun n =>
      if n ≤ 2147483648 then some (-(Int.ofNat n)) else none
  | _ =>
    (parseNatDigits l).bind fun n =>
      if n ≤ 2147483647 then some (Int.ofNat n) else none

def EXIT_CODE_LINE : String := "exit_code:"

/-- `parse_exit_code` (mod.rs:3648): reads the trimmed first line, requires
the `exit_code:` marker, parses the remainder as an `i32`. -/
def parse_exit_code (output : String) : Option Int :=
  match firstLineChars output.toList with
  | none => none
  | some line =>
    let first := trimChars line
    if startsWithChars first EXIT_CODE_LINE.toList then
      parseI32 (trimChars (first.drop EXIT_CODE_LINE.length))
    else none

/-- `is_tool_failure` (mod.rs:3658). -/
def is_tool_failure (output : String) : Bool :=
  if startsWithStr (rustTrimStart output) TOOL_ERROR_TAG then true
  else
    match parse_exit_code output with
    | some code => decide (code ≠ 0)
    | none => false

/-! ## Cancellation and retries (C5)

`check_cancel` (mod.rs:445), `await_with_cancel` (mod.rs:454),
`should_retry_model_error` (mod.rs:464) and `retry_with_cancel` (mod.rs:471).
A `CancellationToken` is modelled cooperatively by the `Bool` it currently
holds; `tokio::select!` racing an already-cancelled token resolves to the
cancellation branch. -/

def check_cancel (cancel_token : Option Bool) : Except String Unit :=
  match cancel_token with
  | some true => Except.error REQUEST_CANCELLED_ERROR
  | _ => Except.ok ()

def await_with_cancel {α : Type} (cancelled : Bool) (fut : Except String α) :
    Except String α :=
  if cancelled then Except.error REQUEST_CANCELLED_ERROR else fut

/-- Modelled from the spec: the body of `is_transient_model_error` lives in
`model/error.rs`, which is not among the provided sources; the spec describes
it as "a predicate over error text — timeouts, 5xx-like signals, rate
limiting". -/
def is_transient_model_error (err : String) : Bool :=
  let lower := lowerStr err
  containsSubstr lower "timeout" || containsSubstr lower "timed out" ||
  containsSubstr lower "rate limit" || containsSubstr lower "429" ||
  containsSubstr lower "500" || containsSubstr lower "502" ||
  containsSubstr lower "503" || containsSubstr lower "504"

def should_retry_model_error (err : String) : Bool :=
  if err = REQUEST_CANCELLED_ERROR ∨ err = TOOL_MODE_UNSET_ERROR then false
  else is_transient_model_error err

/-- The attempt loop of `retry_with_cancel`.  The operation is indexed by the
attempt number; the backoff sleep has no observable effect in the model.  The
fuel `MODEL_MAX_RETRIES + 1` covers every reachable attempt, so the
fuel-exhausted fallback is never taken. -/
def retryAux {α : Type} (cancelled : Bool) (op : Nat → Except String α) :
    Nat → Nat → Except String α
  | attempt, 0 => await_with_cancel cancelled (op attempt)
  | attempt, fuel + 1 =>
    match await_with_cancel cancelled (op attempt) with
    | Except.ok v => Except.ok v
    | Except.error err =>
      if err = REQUEST_CANCELLED_ERROR then Except.error err
      else if attempt + 1 > MODEL_MAX_RETRIES ∨ should_retry_model_error err = false then
        Except.error err
      else retryAux cancelled op (attempt + 1) fuel

def retry_with_cancel {α : Type} (cancelled : Bool) (op : Nat → Except String α) :
    Except String α :=
  retryAux cancelled op 0 (MODEL_MAX_RETRIES + 1)

/-- `is_context_overflow_error` (mod.rs:693). -/
def is_context_overflow_error (err : String) : Bool :=
  let lower := lowerStr err
  containsSubstr lower "context_length_exceeded" || containsSubstr lower "context length" ||
  containsSubstr lower "context window" || containsSubstr lower "maximum context" ||
  containsSubstr lower "too many tokens" || containsSubstr lower "token limit" ||
  containsSubstr lower "prompt is too long" || containsSubstr lower "input is too long" ||
  containsSubstr lower "improperly formed request" || containsSubstr lower "bad request"

/-! ## The file tools (C7, C8) over a file-system model

The filesystem is a map from normalized paths to textual file contents; byte
counts are UTF-8 byte sizes of those contents.  `fs::create_dir_all` has no
observable effect in this model, and slicing at a byte count that falls
inside a multi-byte character keeps only the whole characters (Rust's
`from_utf8_lossy` would add a replacement character for the cut one). -/

def FileSystem : Type := List NComp → Option String

structure ReadArgs where
  path : List RawComp
  max_bytes : Option Nat

structure WriteArgs where
  path : List RawComp
  content : String
  append : Option Bool

structure EditArgs where
  path : List RawComp
  old : String
  new : String
  replace_all : Option Bool

def takeUtf8BytesAux : List Char → Nat → List Char
  | [], _ => []
  | c :: rest, budget =>
    if c.utf8Size ≤ budget then c :: takeUtf8BytesAux rest (budget - c.utf8Size)
    else []

/-- The largest prefix of `s` whose UTF-8 encoding fits in `n` bytes. -/
def takeUtf8Bytes (s : String) (n : Nat) : String :=
  String.mk (takeUtf8BytesAux s.toList n)

/-- `read_file_tool` (mod.rs:3275). -/
def read_file_tool (fs : FileSystem) (access : ToolAccess) (args : ReadArgs) :
    Except String String :=
  match resolve_and_authorize_path access args.path with
  | Except.error e => Except.error e
  | Except.ok path =>
    let max_bytes := args.max_bytes.getD DEFAULT_MAX_READ_BYTES
    match fs path with
    | none => Except.error "读取失败: 文件不存在"
    | some data =>
      if data.utf8ByteSize > max_bytes then
        Except.ok (takeUtf8Bytes data max_bytes ++ "\n\n[truncated " ++
          toString (data.utf8ByteSize - max_bytes) ++ " bytes]")
      else Except.ok data

/-- `write_file_tool` (mod.rs:3295): overwrites, or appends when `append`;
returns the new filesystem alongside the result. -/
def write_file_tool (fs : FileSystem) (access : ToolAccess) (args : WriteArgs) :
    Except String String × FileSystem :=
  match resolve_and_authorize_path access args.path with
  | Except.error e => (Except.error e, fs)
  | Except.ok path =>
    let newContent :=
      if args.append.getD false then (fs path).getD "" ++ args.content
      else args.content
    (Except.ok ("写入成功: " ++ displayPath path),
      fun q => if q = path then some newContent else fs q)

/-! Rust `str::matches(pat).count()`, `str::replace` and `str::replacen`
on character lists (non-overlapping left-to-right matches; the empty pattern
matches at every character boundary). -/

def countMatchesL (s pat : List Char) : Nat :=
  if h : pat = [] then s.length + 1
  else if pat.isPrefixOf s then 1 + countMatchesL (s.drop pat.length) pat
  else
    match s with
    | [] => 0
    | _ :: rest => countMatchesL rest pat
termination_by s.length
decreasing_by
  · have hp : 0 < pat.length := List.length_pos.mpr h
    have hs : pat.length ≤ s.length := (List.isPrefixOf_iff_prefix.mp (by assumption)).length_le
    simp [List.length_drop]; omega
  · simp

def replaceAllL (s pat new : List Char) : List Char :=
  if h : pat = [] then
    match s with
    | [] => new
    | c :: rest => new ++ c :: replaceAllL rest pat new
  else if pat.isPrefixOf s then new ++ replaceAllL (s.drop pat.length) pat new
  else
    match s with
    | [] => []
    | c :: rest => c :: replaceAllL rest pat new
termination_by s.length
decreasing_by
  · simp_all
  · have hp : 0 < pat.length := List.length_pos.mpr h
    have hs : pat.length ≤ s.length := (List.isPrefixOf_iff_prefix.mp (by assumption)).length_le
    simp [List.length_drop]; omega
  · simp

def replaceFirstL (s pat new : List Char) : List Char :=
  if pat = [] then new ++ s
  else if pat.isPrefixOf s then new ++ s.drop pat.length
  else
    match s with
    | [] => []
    | c :: rest => c :: replaceFirstL rest pat new

def strCountMatches (s pat : String) : Nat := countMatchesL s.toList pat.toList

def strReplaceAll (s pat new : String) : String :=
  String.mk (replaceAllL s.toList pat.toList new.toList)

def strReplaceFirst (s pat new : String) : String :=
  String.mk (replaceFirstL s.toList pat.toList new.toList)

/-- `edit_file_tool` (mod.rs:3318). -/
def edit_file_tool (fs : FileSystem) (access : ToolAccess) (args : EditArgs) :
    Except String String × FileSystem :=
  match resolve_and_authorize_path access args.path with
  | Except.error e => (Except.error e, fs)
  | Except.ok path =>
    match fs path with
    | none => (Except.error "读取失败: 文件不存在", fs)
    | some content =>
      let count := strCountMatches content args.old
      let updated :=
        if args.replace_all.getD true then strReplaceAll content args.old args.new
        else strReplaceFirst content args.old args.new
      if updated = content then (Except.ok "未找到可替换内容", fs)
      else
        (Except.ok ("替换完成: " ++ toString count ++ " 处"),
          fun q => if q = path then some updated else fs q)

/-! ## The command tool (C6)

`run_command_tool` (mod.rs:3479).  Process spawning, stream capture and the
`exit_code:` formatting of the captured output are abstracted into the
`background`/`execute` actions; everything up to that point (mode gate,
command allow-list, working-directory check, timeout clamping, background
heuristic) is modelled. -/

def DEFAULT_COMMAND_TIMEOUT_MS : Nat := 120000

def DEFAULT_AGENT_BROWSER_TIMEOUT_MS : Nat := 20000

def MAX_COMMAND_TIMEOUT_MS : Nat := 900000

structure BashArgs where
  command : String
  cwd : Option (List RawComp)
  timeout_ms : Option Nat

/-- `command_requests_background` (mod.rs:3240). -/
def command_requests_background (command : String) : Bool :=
  let trimmed := trimChars command.toList
  if trimmed.getLast? = some '&' then true
  else
    let lower := trimmed.map Char.toLower
    startsWithChars lower "start ".toList ||
    startsWithChars lower "cmd /c start ".toList ||
    startsWithChars lower "powershell -command \"start-process".toList ||
    startsWithChars lower "powershell -noprofile -command \"start-process".toList

/-- `default_timeout_for_command` (mod.rs:3267). -/
def default_timeout_for_command (command : String) : Nat :=
  let lower := (command.toList.dropWhile Char.isWhitespace).map Char.toLower
  if startsWithChars lower "agent-browser ".toList then
    DEFAULT_AGENT_BROWSER_TIMEOUT_MS
  else DEFAULT_COMMAND_TIMEOUT_MS

inductive RunCommandAction
  | deniedCommand (message : String)
  | deniedCwd (message : String)
  | background (cwd : List NComp) (timeout_ms : Nat)
  | execute (cwd : List NComp) (timeout_ms : Nat)
  deriving DecidableEq, Repr

/-- `run_command_tool` (mod.rs:3479) up to the point where a process would be
spawned. -/
def run_command_tool (access : ToolAccess) (args : BashArgs) :
    Except String RunCommandAction :=
  if access.mode = ToolMode.unset then Except.error TOOL_MODE_UNSET_ERROR
  else if access.mode = ToolMode.whitelist ∧ command_allowed access args.command = false then
    Except.ok (RunCommandAction.deniedCommand "命令不在允许列表中")
  else
    let cwd :=
      match args.cwd with
      | some dir => resolve_path access dir
      | none => access.base_dir
    if access.mode = ToolMode.whitelist ∧ path_is_allowed access (normPathToRaw cwd) = false then
      Except.ok (RunCommandAction.deniedCwd ("工作目录不在允许范围内: " ++ displayPath cwd))
    else
      let timeout :=
        max (min (args.timeout_ms.getD (default_timeout_for_command args.command))
          MAX_COMMAND_TIMEOUT_MS) 1000
      if command_requests_background args.command then
        Except.ok (RunCommandAction.background cwd timeout)
      else Except.ok (RunCommandAction.execute cwd timeout)

/-! ## The agent loop (C3, C4)

`run_tool_loop` (mod.rs:3760 ff.).  The model client is abstracted into the
round-indexed oracles `next` (continuation with the full tool results) and
`nextTrunc` (the overflow fallback with truncated tool results); the tool
dispatcher `execute_tool_call` is abstracted into `exec`.  The `messages`
payload of `ChatWithToolsResult::ToolCalls` only feeds the next model call
and is absorbed into the oracles.  The `rounds : Nat` carried by
`LoopOutcome` instruments the number of tool-execution rounds performed
(the source's `loops` counter). -/

structure ToolCallFunction where
  name : String
  arguments : String
  deriving DecidableEq, Repr

/-- `ToolCall` (model/api.rs:60). -/
structure ToolCall where
  id : String
  call_type : String
  function : ToolCallFunction
  deriving DecidableEq, Repr

/-- `ChatWithToolsResult` (model/api.rs:132). -/
inductive ChatWithToolsResult
  | text (s : String)
  | toolCalls (calls : List ToolCall)
  deriving DecidableEq, Repr

inductive LoopOutcome
  | done (response : String) (rounds : Nat)
  | abortedCap (rounds : Nat)
  | abortedRepeat (rounds : Nat)
  | requestError (err : String) (rounds : Nat)
  | fuelExhausted (rounds : Nat)
  deriving DecidableEq, Repr

/-- The per-round signature used by the repeat detector (mod.rs:3835). -/
def tool_call_signature (calls : List ToolCall) : List (String × String) :=
  calls.map (fun c => (c.function.name, c.function.arguments))

/-- `repeat_loops` bookkeeping (mod.rs:3895-3901): a round that is an
identical repeat and contains a failure increments the counter, any other
round resets it to zero. -/
def update_repeat_loops (isRepeat hasFailure : Bool) (repeats : Nat) : Nat :=
  if isRepeat = true ∧ hasFailure = true then repeats + 1 else 0

/-- The tool-execution loop of one round (mod.rs:3841-3893): per call, check
cancellation, race execution against the token, turn an ordinary error into
a `TOOL_ERROR:`-tagged tool result, and propagate the two distinguished
request-level errors. -/
def runCalls (token : Option Bool) (exec : ToolCall → Except String String) :
    List ToolCall → Except String (List (String × String))
  | [] => Except.ok []
  | call :: rest =>
    match check_cancel token with
    | Except.error e => Except.error e
    | Except.ok _ =>
      let outputResult :=
        match token with
        | some c => await_with_cancel c (exec call)
        | none => exec call
      match outputResult with
      | Except.ok text =>
        (runCalls token exec rest).map (fun tl => (call.id, text) :: tl)
      | Except.error err =>
        if err = TOOL_MODE_UNSET_ERROR ∨ err = REQUEST_CANCELLED_ERROR then
          Except.error err
        else
          (runCalls token exec rest).map
            (fun tl => (call.id, TOOL_ERROR_TAG ++ " " ++ err) :: tl)

/-- The model continuation of one round
(`continue_with_tool_results_filtered` behind `retry_with_cancel`,
mod.rs:3924-3995), including the context-overflow fallback that retries once
with truncated tool results. -/
def model_continue (token : Option Bool)
    (next nextTrunc : Nat → Except String ChatWithToolsResult) (round : Nat) :
    Except String ChatWithToolsResult :=
  let attempt :=
    match token with
    | some c => retry_with_cancel c (fun _ => next round)
    | none => next round
  match attempt with
  | Except.ok v => Except.ok v
  | Except.error err =>
    if is_context_overflow_error err then
      match token with
      | some c => retry_with_cancel c (fun _ => nextTrunc round)
      | none => nextTrunc round
    else Except.error err

/-- The main loop of `run_tool_loop` (mod.rs:3785 ff.).  `fuel` bounds the
recursion; since `loops` grows by one per round and the round-cap check fires
at `loops ≥ MAX_TOOL_LOOPS`, fuel `MAX_TOOL_LOOPS + 1 - loops` suffices and
`fuelExhausted` is unreachable from the entry point. -/
def runToolLoopAux (token : Option Bool) (exec : ToolCall → Except String String)
    (next nextTrunc : Nat → Except String ChatWithToolsResult) :
    Nat → ChatWithToolsResult → Nat → Option (List (String × String)) → Nat →
    LoopOutcome
  | 0, _, loops, _, _ => LoopOutcome.fuelExhausted loops
  | fuel + 1, result, loops, lastSig, repeats =>
    match check_cancel token with
    | Except.error _ => LoopOutcome.requestError REQUEST_CANCELLED_ERROR loops
    | Except.ok _ =>
      match result with
      | ChatWithToolsResult.text t => LoopOutcome.done t loops
      | ChatWithToolsResult.toolCalls calls =>
        if loops ≥ MAX_TOOL_LOOPS then LoopOutcome.abortedCap loops
        else
          match runCalls token exec calls with
          | Except.error e => LoopOutcome.requestError e loops
          | Except.ok results =>
            let signature := tool_call_signature calls
            let hasFailure := results.any (fun r => is_tool_failure r.2)
            let repeats' :=
              update_repeat_loops (decide (lastSig = some signature)) hasFailure repeats
            if repeats' ≥ MAX_REPEAT_TOOL_LOOPS then
              LoopOutcome.abortedRepeat (loops + 1)
            else
              match model_continue token next nextTrunc loops with
              | Except.error e => LoopOutcome.requestError e (loops + 1)
              | Except.ok value =>
                runToolLoopAux token exec next nextTrunc fuel value (loops + 1)
                  (some signature) repeats'

/-- `run_tool_loop` entered with the result of the initial model call. -/
def run_tool_loop (token : Option Bool) (exec : ToolCall → Except String String)
    (next nextTrunc : Nat → Except String ChatWithToolsResult)
    (first : ChatWithToolsResult) : LoopOutcome :=
  runToolLoopAux token exec next nextTrunc (MAX_TOOL_LOOPS + 1) first 0 none 0

/-! ## Context/window manager (C9)

`estimate_text_tokens` (mod.rs:528), `estimate_history_tokens` (mod.rs:541),
`build_history_compression_summary` (mod.rs:553) and
`compress_history_if_needed` (mod.rs:589).  The two thresholds
`trigger_tokens`/`target_tokens` are `floor(max_context_tokens × ratio)` for
the clamped `f32` trigger ratio and for `ratio − 0.08`; they are taken as
`Nat` parameters here, abstracting the floating-point product. -/

structure ToolCallInfo where
  id : String
  name : String
  arguments : String
  deriving DecidableEq, Repr

/-- `ChatHistoryMessage` (mod.rs:242). -/
structure ChatHistoryMessage where
  role : String
  content : String
  tool_call_id : Option String
  tool_calls : Option (List ToolCallInfo)
  deriving DecidableEq, Repr

def estimate_text_tokens (text : String) : Nat :=
  let ascii := (text.toList.filter (fun c => decide (c.toNat ≤ 127))).length
  let nonAscii := text.toList.length - ascii
  (ascii + 3) / 4 + nonAscii + 1

def estimate_history_tokens (system_prompt user_message : String)
    (history : List ChatHistoryMessage) : Nat :=
  history.foldl (fun total msg => total + estimate_text_tokens msg.content + 8)
    (estimate_text_tokens system_prompt + estimate_text_tokens user_message + 24)

/-- `truncate_string` (mod.rs:3218): character-count truncation; the flag
records whether anything was cut. -/
def truncate_string (value : String) (maxChars : Nat) : String × Bool :=
  if value.toList.length ≤ maxChars then (value, false)
  else (String.mk (value.toList.take maxChars), true)

/-- Rust `split_whitespace().collect::<Vec<_>>().join(" ")`. -/
def joinWords (s : String) : String :=
  String.intercalate " "
    (((s.toList.splitOnP Char.isWhitespace).filter (fun w => w ≠ [])).map String.mk)

def summaryRole (role : String) : String :=
  if lowerStr role = "assistant" then "assistant"
  else if lowerStr role = "system" then "system"
  else "user"

def build_summary_aux (maxChars : Nat) :
    List ChatHistoryMessage → Nat → Nat → String → String
  | [], _, _, acc => acc
  | msg :: rest, idx, used, acc =>
    if idx ≥ 80 then acc ++ "- ...(more omitted)\n"
    else
      let compact := joinWords msg.content
      let st := truncate_string compact 220
      let line := "- " ++ summaryRole msg.role ++ ": " ++ st.1 ++
        (if st.2 then " ..." else "") ++ "\n"
      let lineChars := line.toList.length
      if used + lineChars > maxChars then acc ++ "- ...(more omitted)\n"
      else build_summary_aux maxChars rest (idx + 1) (used + lineChars) (acc ++ line)

/-- `build_history_compression_summary` (mod.rs:553). -/
def build_history_compression_summary (history : List ChatHistoryMessage)
    (maxChars : Nat) : String :=
  let header := "Context compression summary of earlier conversation:\n"
  build_summary_aux maxChars history 0 header.toList.length header

/-- `remove_idx` selection shared by the two removal loops (mod.rs:639, 674). -/
def compressRemoveIdx (hasSummary : Bool) (l : List ChatHistoryMessage) : Nat :=
  if hasSummary = true ∧ l.length > 1 then 1 else 0

/-- First compression loop (mod.rs:637-648): drop the oldest kept message
while over the target, at most 128 times, keeping at least 4 messages. -/
def compress_loop1 (sys user : String) (targetTokens : Nat) (hasSummary : Bool)
    (loops : Nat) (compressed : List ChatHistoryMessage) :
    List ChatHistoryMessage :=
  if estimate_history_tokens sys user compressed > targetTokens ∧
      compressed.length > 4 ∧ loops < 128 then
    compress_loop1 sys user targetTokens hasSummary (loops + 1)
      (compressed.eraseIdx (compressRemoveIdx hasSummary compressed))
  else compressed
termination_by 128 - loops
decreasing_by omega

/-- Summary-shrinking loop (mod.rs:650-664): truncate the summary head while
over the target, shrinking the limit by a quarter each time
(`(limit as f32) * 0.75` is exact for these magnitudes, i.e. `3 * limit / 4`),
stopping at 600. -/
def compress_loop2 (sys user : String) (targetTokens : Nat)
    (summaryLimit : Nat) (compressed : List ChatHistoryMessage) :
    List ChatHistoryMessage :=
  if estimate_history_tokens sys user compressed > targetTokens ∧
      summaryLimit > 600 then
    let newCompressed :=
      match compressed with
      | [] => []
      | head :: tail =>
        let st := truncate_string head.content summaryLimit
        { head with content :=
            if st.2 then st.1 ++ "\n...(summary truncated)" else st.1 } :: tail
    compress_loop2 sys user targetTokens (summaryLimit * 3 / 4) newCompressed
  else compressed
termination_by summaryLimit
decreasing_by omega

/-- Final removal loop (mod.rs:666-675): drop the oldest kept message while
over the trigger, keeping at least 2 messages. -/
def compress_loop3 (sys user : String) (triggerTokens : Nat) (hasSummary : Bool)
    (compressed : List ChatHistoryMessage) : List ChatHistoryMessage :=
  if h : estimate_history_tokens sys user compressed > triggerTokens ∧
      compressed.length > 2 then
    compress_loop3 sys user triggerTokens hasSummary
      (compressed.eraseIdx (compressRemoveIdx hasSummary compressed))
  else compressed
termination_by compressed.length
decreasing_by
  have h2 : compressed.length > 2 := h.2
  have hlt : compressRemoveIdx hasSummary compressed < compressed.length := by
    unfold compressRemoveIdx; split <;> omega
  have := List.length_eraseIdx_add_one hlt
  omega

/-- `compress_history_if_needed` (mod.rs:589). -/
def compress_history_if_needed :
    Option (List ChatHistoryMessage) → String → String → Nat → Nat →
    Option (List ChatHistoryMessage)
  | none, _, _, _, _ => none
  | some history, system_prompt, user_message, triggerTokens, targetTokens =>
    if history.length ≤ 2 then some history
    else if history.length < MIN_HISTORY_MESSAGES_BEFORE_COMPRESSION then some history
    else if estimate_history_tokens system_prompt user_message history ≤ triggerTokens then
      some history
    else
      let keepRecent := min history.length 12
      let splitIdx := history.length - keepRecent
      let older := history.take splitIdx
      let recent := history.drop splitIdx
      let hasSummary := decide (older ≠ [])
      let compressed :=
        if hasSummary then
          (⟨"assistant", build_history_compression_summary older 6000, none, none⟩ :
            ChatHistoryMessage) :: recent
        else recent
      let c1 := compress_loop1 system_prompt user_message targetTokens hasSummary 0 compressed
      let c2 :=
        if hasSummary = true ∧ c1 ≠ [] then
          compress_loop2 system_prompt user_message targetTokens 3000 c1
        else c1
      some (compress_loop3 system_prompt user_message triggerTokens hasSummary c2)

/-! ## Concrete fixtures used by witnesses and counterexamples -/

def baseData : List NComp := [NComp.root, NComp.norm "data"]

/-- A whitelist policy rooted at `/data` allowing only `git`. -/
def accessWL : ToolAccess :=
  { mode := ToolMode.whitelist, allowed_commands := ["git"],
    allowed_dirs := [baseData], base_dir := baseData,
    tasks_dir := baseData ++ [NComp.norm ".task_outputs"] }

/-- An `allow_all` policy rooted at `/data`. -/
def accessAA : ToolAccess :=
  { mode := ToolMode.allow_all, allowed_commands := [],
    allowed_dirs := [baseData], base_dir := baseData,
    tasks_dir := baseData ++ [NComp.norm ".task_outputs"] }

/-- An unset policy that nevertheless carries a command allow-list (as
`build_tool_access` permits: it copies `allowed_commands` regardless of mode). -/
def accessUn : ToolAccess :=
  { mode := ToolMode.unset, allowed_commands := ["git"],
    allowed_dirs := [baseData], base_dir := baseData,
    tasks_dir := baseData ++ [NComp.norm ".task_outputs"] }

/-- A whitelist policy with an empty command allow-list. -/
def accessWLE : ToolAccess :=
  { mode := ToolMode.whitelist, allowed_commands := [],
    allowed_dirs := [baseData], base_dir := baseData,
    tasks_dir := baseData ++ [NComp.norm ".task_outputs"] }

def pRelF : List RawComp := [RawComp.normal "f.txt"]

def pResF : List NComp := [NComp.root, NComp.norm "data", NComp.norm "f.txt"]

def fsEmpty : FileSystem := fun _ => none

/-- A filesystem holding the two-character file `aa` at `/data/f.txt`. -/
def fsAA : FileSystem := fun q => if q = pResF then some "aa" else none

def callA : ToolCall :=
  { id := "call-1", call_type := "function",
    function := { name := "Bash", arguments := "x" } }

def execSucceeds : ToolCall → Except String String := fun _ => Except.ok "done"

def execFails : ToolCall → Except String String :=
  fun _ => Except.ok "TOOL_ERROR: boom"

def nextAlwaysCalls : Nat → Except String ChatWithToolsResult :=
  fun _ => Except.ok (ChatWithToolsResult.toolCalls [callA])

/-- Two further tool-call rounds, then a text answer. -/
def nextThreeRounds : Nat → Except String ChatWithToolsResult :=
  fun n =>
    if n < 2 then Except.ok (ChatWithToolsResult.toolCalls [callA])
    else Except.ok (ChatWithToolsResult.text "done")

def nextTextOnly : Nat → Except String ChatWithToolsResult :=
  fun _ => Except.ok (ChatWithToolsResult.text "later")

def msgShort : ChatHistoryMessage :=
  { role := "user", content := "hi", tool_call_id := none, tool_calls := none }

def argsNpm : BashArgs :=
  { command := "npm install", cwd := none, timeout_ms := none }

/-! ### Facts about normalization -/

theorem rootOnlyAtHead_pushComp {l : List NComp} (h : RootOnlyAtHead l) (c : NComp) :
    RootOnlyAtHead (pushComp l c) := by
  cases c with
  | root => intro d hd; simp [pushComp] at hd
  | norm s =>
    intro d hd
    cases l with
    | nil => simp [pushComp] at hd
    | cons x xs =>
      simp [pushComp] at hd
      rcases hd with hd | hd
      · exact h d (by simpa using hd)
      · simp [hd]

theorem rootOnlyAtHead_popPath {l : List NComp} (h : RootOnlyAtHead l) :
    RootOnlyAtHead (popPath l) := by
  match l with
  | [] => exact h
  | [NComp.root] => simpa [popPath] using h
  | [NComp.norm s] => intro c hc; simp [popPath] at hc
  | a :: b :: rest =>
    intro c hc
    have hsub : c ∈ (a :: b :: rest).drop 1 := by
      have : (a :: b :: rest).dropLast.drop 1 = (b :: rest).dropLast := by
        simp
      have hmem : c ∈ (b :: rest).dropLast := by
        have hc' : c ∈ (a :: b :: rest).dropLast.drop 1 := by
          simpa [popPath] using hc
        simpa [this] using hc'
      have := List.dropLast_sublist (b :: rest)
      exact List.Sublist.mem hmem (by simpa using this)
    exact h c hsub

theorem rootOnlyAtHead_normalize (p : List RawComp) :
    RootOnlyAtHead (normalize_path p) := by
  suffices h : ∀ acc : List NComp, RootOnlyAtHead acc →
      RootOnlyAtHead (p.foldl
        (fun acc c =>
          match c with
          | RawComp.rootDir => pushComp acc NComp.root
          | RawComp.curDir => acc
          | RawComp.parentDir => popPath acc
          | RawComp.normal s => pushComp acc (NComp.norm s)) acc) by
    exact h [] (by intro c hc; simp at hc)
  induction p with
  | nil => intro acc hacc; simpa using hacc
  | cons c rest ih =>
    intro acc hacc
    cases c with
    | rootDir => exact ih _ (rootOnlyAtHead_pushComp hacc _)
    | curDir => exact ih _ hacc
    | parentDir => exact ih _ (rootOnlyAtHead_popPath hacc)
    | normal s => exact ih _ (rootOnlyAtHead_pushComp hacc _)

/-- Folding only normal components onto an accumulator just appends them. -/
theorem foldl_norm_append (t : List NComp) :
    ∀ acc : List NComp, (∀ c ∈ t, c ≠ NComp.root) →
      (normPathToRaw t).foldl
        (fun acc c =>
          match c with
          | RawComp.rootDir => pushComp acc NComp.root
          | RawComp.curDir => acc
          | RawComp.parentDir => popPath acc
          | RawComp.normal s => pushComp acc (NComp.norm s)) acc = acc ++ t := by
  induction t with
  | nil => intro acc _; simp [normPathToRaw]
  | cons c rest ih =>
    intro acc hall
    cases c with
    | root => exact absurd rfl (hall NComp.root (by simp))
    | norm s =>
      have : (normPathToRaw rest).foldl
          (fun acc c =>
            match c with
            | RawComp.rootDir => pushComp acc NComp.root
            | RawComp.curDir => acc
            | RawComp.parentDir => popPath acc
            | RawComp.normal s => pushComp acc (NComp.norm s))
          (acc ++ [NComp.norm s]) = (acc ++ [NComp.norm s]) ++ rest :=
        ih (acc ++ [NComp.norm s]) (fun c hc => hall c (by simp [hc]))
      simpa [normPathToRaw, ncompToRaw, pushComp] using this

/-- Normalization is the identity on (the raw view of) an already-normalized
path. -/
theorem normalize_normPathToRaw {l : List NComp} (h : RootOnlyAtHead l) :
    normalize_path (normPathToRaw l) = l := by
  cases l with
  | nil => rfl
  | cons c rest =>
    have hrest : ∀ d ∈ rest, d ≠ NComp.root := by
      intro d hd; exact h d (by simpa using hd)
    cases c with
    | root =>
      have : (normPathToRaw rest).foldl
          (fun acc c =>
            match c with
            | RawComp.rootDir => pushComp acc NComp.root
            | RawComp.curDir => acc
            | RawComp.parentDir => popPath acc
            | RawComp.normal s => pushComp acc (NComp.norm s))
          [NComp.root] = [NComp.root] ++ rest := foldl_norm_append rest [NComp.root] hrest
      simpa [normalize_path, normPathToRaw, ncompToRaw, pushComp] using this
    | norm s =>
      have : (normPathToRaw rest).foldl
          (fun acc c =>
            match c with
            | RawComp.rootDir => pushComp acc NComp.root
            | RawComp.curDir => acc
            | RawComp.parentDir => popPath acc
            | RawComp.normal s => pushComp acc (NComp.norm s))
          [NComp.norm s] = [NComp.norm s] ++ rest := foldl_norm_append rest [NComp.norm s] hrest
      simpa [normalize_path, normPathToRaw, ncompToRaw, pushComp] using this

theorem normalize_resolve (access : ToolAccess) (p : List RawComp) :
    normalize_path (normPathToRaw (resolve_path access p)) = resolve_path access p := by
  apply normalize_normPathToRaw
  unfold resolve_path
  split
  · exact rootOnlyAtHead_normalize p
  · exact rootOnlyAtHead_normalize _



/-! ## Claim C1 -/

/-- C1: Path authorization trichotomy.  For every tool-access policy and
caller-supplied path, the path is resolved (absolute inputs pass through,
relative inputs are joined to `base_dir`) and lexically normalized; then
authorization succeeds under `whitelist` iff some `allowed_dirs` entry is a
prefix of the normalized path, succeeds unconditionally under `allow_all`,
and always fails with the distinguished `TOOLS_MODE_UNSET` error under
`unset`. -/
theorem C1_path_authorization_trichotomy (access : ToolAccess) (p : List RawComp) :
    resolve_path access p =
      (if rawIsAbsolute p then normalize_path p
       else normalize_path (normPathToRaw access.base_dir ++ p)) ∧
    (access.mode = ToolMode.unset →
      resolve_and_authorize_path access p = Except.error TOOL_MODE_UNSET_ERROR) ∧
    (access.mode = ToolMode.allow_all →
      resolve_and_authorize_path access p = Except.ok (resolve_path access p)) ∧
    (access.mode = ToolMode.whitelist →
      (resolve_and_authorize_path access p = Except.ok (resolve_path access p) ↔
        ∃ dir ∈ access.allowed_dirs,
          dir.isPrefixOf (resolve_path access p) = true)) := by
  refine ⟨rfl, ?_, ?_, ?_⟩
  · intro h
    simp [resolve_and_authorize_path, h]
  · intro h
    simp [resolve_and_authorize_path, h, ensure_path_allowed]
  · intro h
    have hne : access.mode ≠ ToolMode.unset := by simp [h]
    have hallowed : path_is_allowed access (normPathToRaw (resolve_path access p)) =
        access.allowed_dirs.any (fun dir => dir.isPrefixOf (resolve_path access p)) := by
      unfold path_is_allowed
      rw [if_neg (by simp [h]), normalize_resolve]
    constructor
    · intro hok
      by_cases hany :
          access.allowed_dirs.any (fun dir => dir.isPrefixOf (resolve_path access p)) = true
      · simpa using List.any_eq_true.mp hany
      · exfalso
        have hcond : access.mode = ToolMode.whitelist ∧
            path_is_allowed access (normPathToRaw (resolve_path access p)) = false := by
          refine ⟨h, ?_⟩
          rw [hallowed]
          exact Bool.eq_false_iff.mpr hany
        unfold resolve_and_authorize_path ensure_path_allowed at hok
        rw [if_neg hne, if_pos hcond] at hok
        exact Except.noConfusion hok
    · intro hex
      have hany :
          access.allowed_dirs.any (fun dir => dir.isPrefixOf (resolve_path access p)) = true :=
        List.any_eq_true.mpr (by simpa using hex)
      unfold resolve_and_authorize_path ensure_path_allowed
      rw [if_neg hne, if_neg]
      simp [hallowed, hany]

theorem C1_path_authorization_trichotomy_witness :
    resolve_and_authorize_path accessWL pRelF =
      Except.ok (resolve_path accessWL pRelF) :=
  ((C1_path_authorization_trichotomy accessWL pRelF).2.2.2 rfl).mpr (by decide)


/-! ## Claim C2 -/

/-- C2 (amended): `command_allowed` extracts the leading executable token
(honouring a quoted first token), lower-cases it and its file-name-only form,
and returns true iff the mode is `allow_all` or some pattern in
`allowed_commands` matches either form (exact match, or glob match when the
pattern contains wildcards); with any other mode an empty `allowed_commands`
always yields false.  (The function itself does not special-case an `unset`
policy; the unset mode is rejected earlier by the command tool.) -/
theorem C2_command_authorization_amended (access : ToolAccess) (command : String) :
    (command_allowed access command = true ↔
      (access.mode = ToolMode.allow_all ∨
        ∃ entry ∈ access.allowed_commands,
          entry_matches_command
            (lowerStr (extract_command_token command))
            (lowerStr ((rustFileName (extract_command_token command)).getD
              (extract_command_token command))) entry = true)) ∧
    (access.mode ≠ ToolMode.allow_all → access.allowed_commands = [] →
      command_allowed access command = false) := by
  constructor
  · unfold command_allowed
    by_cases h : access.mode = ToolMode.allow_all
    · simp [h]
    · rw [if_neg h]
      simp [List.any_eq_true, h]
  · intro h hcmds
    unfold command_allowed
    rw [if_neg h, hcmds]
    simp

theorem C2_command_authorization_amended_witness :
    command_allowed accessWLE "ls -la" = false :=
  (C2_command_authorization_amended accessWLE "ls -la").2 (by decide) rfl

/-- C2 counterexample: an `unset` policy whose `allowed_commands` contains
`git` authorizes `git status`, contradicting the claim that an Unset policy
always yields false. -/
theorem C2_command_authorization_counterexample :
    command_allowed accessUn "git status" = true := by decide


/-! ## Loop lemmas shared by C3, C4 and C10 -/

/-- When the executor never raises the two distinguished request-level
errors, a round's tool execution always produces a result list. -/
theorem runCalls_ok_of_no_fatal (exec : ToolCall → Except String String)
    (hexec : ∀ c e, exec c = Except.error e →
      e ≠ TOOL_MODE_UNSET_ERROR ∧ e ≠ REQUEST_CANCELLED_ERROR) :
    ∀ calls, ∃ results, runCalls none exec calls = Except.ok results := by
  intro calls
  induction calls with
  | nil => exact ⟨[], rfl⟩
  | cons call rest ih =>
    obtain ⟨tl, htl⟩ := ih
    cases hc : exec call with
    | ok text =>
      exact ⟨(call.id, text) :: tl, by simp [runCalls, check_cancel, hc, htl, Except.map]⟩
    | error err =>
      have hnf := hexec call err hc
      refine ⟨(call.id, TOOL_ERROR_TAG ++ " " ++ err) :: tl, ?_⟩
      simp [runCalls, check_cancel, hc, htl, hnf.1, hnf.2, Except.map]

/-- When every call of the round succeeds with a failing output, the round's
results exist and contain a failure (for nonempty rounds). -/
theorem runCalls_ok_all_failing (exec : ToolCall → Except String String) :
    ∀ calls, (∀ c ∈ calls, ∃ out, exec c = Except.ok out ∧ is_tool_failure out = true) →
      ∃ results, runCalls none exec calls = Except.ok results ∧
        (calls ≠ [] → results.any (fun r => is_tool_failure r.2) = true) := by
  intro calls
  induction calls with
  | nil => exact fun _ => ⟨[], rfl, by simp⟩
  | cons call rest ih =>
    intro hexec
    obtain ⟨out, hout, hfail⟩ := hexec call (by simp)
    obtain ⟨tl, htl, _⟩ := ih (fun c hc => hexec c (by simp [hc]))
    refine ⟨(call.id, out) :: tl, ?_, ?_⟩
    · simp [runCalls, check_cancel, hout, htl, Except.map]
    · intro _
      simp [hfail]

/-- When every call succeeds with a non-failing output, the round's results
exist and contain no failure. -/
theorem runCalls_ok_no_failure (exec : ToolCall → Except String String)
    (hexec : ∀ c, ∃ out, exec c = Except.ok out ∧ is_tool_failure out = false) :
    ∀ calls, ∃ results, runCalls none exec calls = Except.ok results ∧
      results.any (fun r => is_tool_failure r.2) = false := by
  intro calls
  induction calls with
  | nil => exact ⟨[], rfl, rfl⟩
  | cons call rest ih =>
    obtain ⟨out, hout, hfail⟩ := hexec call
    obtain ⟨tl, htl, hany⟩ := ih
    refine ⟨(call.id, out) :: tl, ?_, ?_⟩
    · simp [runCalls, check_cancel, hout, htl, Except.map]
    · simp [hfail, hany]

/-- One continuing step of the loop: under the cap, with tool results in
hand, below the repeat bound, and with a successful model continuation, the
loop proceeds to the next round. -/
theorem runToolLoopAux_step_continue (exec : ToolCall → Except String String)
    (next nextTrunc : Nat → Except String ChatWithToolsResult)
    (fuel loops repeats : Nat) (calls : List ToolCall)
    (lastSig : Option (List (String × String)))
    (results : List (String × String)) (value : ChatWithToolsResult)
    (hcap : loops < MAX_TOOL_LOOPS)
    (hres : runCalls none exec calls = Except.ok results)
    (hrep : update_repeat_loops (decide (lastSig = some (tool_call_signature calls)))
        (results.any (fun r => is_tool_failure r.2)) repeats < MAX_REPEAT_TOOL_LOOPS)
    (hnl : next loops = Except.ok value) :
    runToolLoopAux none exec next nextTrunc (fuel + 1)
        (ChatWithToolsResult.toolCalls calls) loops lastSig repeats =
      runToolLoopAux none exec next nextTrunc fuel value (loops + 1)
        (some (tool_call_signature calls))
        (update_repeat_loops (decide (lastSig = some (tool_call_signature calls)))
          (results.any (fun r => is_tool_failure r.2)) repeats) := by
  simp [runToolLoopAux, check_cancel, Nat.not_le.mpr hcap, hres,
    Nat.not_le.mpr hrep, model_continue, hnl]

/-- One aborting step of the loop: when the updated repeat counter reaches
the bound, the round ends in the repeat abort. -/
theorem runToolLoopAux_step_repeat_abort (exec : ToolCall → Except String String)
    (next nextTrunc : Nat → Except String ChatWithToolsResult)
    (fuel loops repeats : Nat) (calls : List ToolCall)
    (lastSig : Option (List (String × String)))
    (results : List (String × String))
    (hcap : loops < MAX_TOOL_LOOPS)
    (hres : runCalls none exec calls = Except.ok results)
    (hrep : update_repeat_loops (decide (lastSig = some (tool_call_signature calls)))
        (results.any (fun r => is_tool_failure r.2)) repeats ≥ MAX_REPEAT_TOOL_LOOPS) :
    runToolLoopAux none exec next nextTrunc (fuel + 1)
        (ChatWithToolsResult.toolCalls calls) loops lastSig repeats =
      LoopOutcome.abortedRepeat (loops + 1) := by
  simp [runToolLoopAux, check_cancel, Nat.not_le.mpr hcap, hres, hrep]


/-! ## Claim C3 -/

/-- Invariant behind the round cap: from any reachable loop state holding a
tool-calls response, with tool execution never raising a request-level error
and the model always answering with tool calls, the loop can only end in one
of the two aborts, with at most `MAX_TOOL_LOOPS` executed rounds. -/
theorem runToolLoopAux_cap (exec : ToolCall → Except String String)
    (next nextTrunc : Nat → Except String ChatWithToolsResult)
    (hexec : ∀ c e, exec c = Except.error e →
      e ≠ TOOL_MODE_UNSET_ERROR ∧ e ≠ REQUEST_CANCELLED_ERROR)
    (hnext : ∀ n, ∃ calls, next n = Except.ok (ChatWithToolsResult.toolCalls calls)) :
    ∀ fuel loops lastSig repeats calls,
      fuel = MAX_TOOL_LOOPS + 1 - loops → loops ≤ MAX_TOOL_LOOPS →
      (runToolLoopAux none exec next nextTrunc fuel
          (ChatWithToolsResult.toolCalls calls) loops lastSig repeats =
        LoopOutcome.abortedCap MAX_TOOL_LOOPS ∨
       ∃ r, r ≤ MAX_TOOL_LOOPS ∧
         runToolLoopAux none exec next nextTrunc fuel
           (ChatWithToolsResult.toolCalls calls) loops lastSig repeats =
           LoopOutcome.abortedRepeat r) := by
  intro fuel
  induction fuel with
  | zero =>
    intro loops lastSig repeats calls hfuel hloops
    omega
  | succ fuel ih =>
    intro loops lastSig repeats calls hfuel hloops
    by_cases hcap : loops ≥ MAX_TOOL_LOOPS
    · left
      have hl : loops = MAX_TOOL_LOOPS := Nat.le_antisymm hloops hcap
      subst hl
      simp [runToolLoopAux, check_cancel]
    · have hcap' : loops < MAX_TOOL_LOOPS := Nat.lt_of_not_le hcap
      obtain ⟨results, hres⟩ := runCalls_ok_of_no_fatal exec hexec calls
      obtain ⟨calls', hnl⟩ := hnext loops
      by_cases hrep :
          update_repeat_loops (decide (lastSig = some (tool_call_signature calls)))
            (results.any (fun r => is_tool_failure r.2)) repeats ≥ MAX_REPEAT_TOOL_LOOPS
      · right
        exact ⟨loops + 1, by omega,
          runToolLoopAux_step_repeat_abort exec next nextTrunc fuel loops repeats
            calls lastSig results hcap' hres hrep⟩
      · rw [runToolLoopAux_step_continue exec next nextTrunc fuel loops repeats
          calls lastSig results (ChatWithToolsResult.toolCalls calls') hcap' hres
          (Nat.lt_of_not_le hrep) hnl]
        exact ih (loops + 1) (some (tool_call_signature calls)) _ calls'
          (by omega) (by omega)

/-- C3 (amended): for every run in which the model responds with tool calls
on every round (and tool execution never raises a request-level error), the
loop terminates in an aborted outcome with at most `MAX_TOOL_LOOPS = 999`
executed rounds: at exactly the cap via the cap abort, unless the
repeat-failure abort fires on an earlier round. -/
theorem C3_hard_round_cap (exec : ToolCall → Except String String)
    (next nextTrunc : Nat → Except String ChatWithToolsResult)
    (first : ChatWithToolsResult)
    (hexec : ∀ c e, exec c = Except.error e →
      e ≠ TOOL_MODE_UNSET_ERROR ∧ e ≠ REQUEST_CANCELLED_ERROR)
    (hnext : ∀ n, ∃ calls, next n = Except.ok (ChatWithToolsResult.toolCalls calls))
    (hfirst : ∃ calls, first = ChatWithToolsResult.toolCalls calls) :
    run_tool_loop none exec next nextTrunc first =
      LoopOutcome.abortedCap MAX_TOOL_LOOPS ∨
    ∃ r, r ≤ MAX_TOOL_LOOPS ∧
      run_tool_loop none exec next nextTrunc first = LoopOutcome.abortedRepeat r := by
  obtain ⟨calls, rfl⟩ := hfirst
  exact runToolLoopAux_cap exec next nextTrunc hexec hnext
    (MAX_TOOL_LOOPS + 1) 0 none 0 calls (by omega) (by omega)

theorem C3_hard_round_cap_witness :
    run_tool_loop none execSucceeds nextAlwaysCalls nextTextOnly
        (ChatWithToolsResult.toolCalls [callA]) =
      LoopOutcome.abortedCap MAX_TOOL_LOOPS ∨
    ∃ r, r ≤ MAX_TOOL_LOOPS ∧
      run_tool_loop none execSucceeds nextAlwaysCalls nextTextOnly
        (ChatWithToolsResult.toolCalls [callA]) = LoopOutcome.abortedRepeat r :=
  C3_hard_round_cap execSucceeds nextAlwaysCalls nextTextOnly _
    (fun c e h => by simp [execSucceeds] at h)
    (fun n => ⟨[callA], rfl⟩) ⟨[callA], rfl⟩

/-- C3 counterexample: the claim as stated ("terminates ... at exactly the
configured hard cap of rounds") fails when every round repeats the same
failing call: the repeat-failure abort ends the loop after 4 rounds. -/
theorem C3_hard_round_cap_counterexample :
    run_tool_loop none execFails nextAlwaysCalls nextTextOnly
        (ChatWithToolsResult.toolCalls [callA]) = LoopOutcome.abortedRepeat 4 := by
  decide


/-! ## Claim C4 -/

/-- Countdown of the repeat detector: from a state whose last signature
already equals the (failing) round signature and whose counter `r` needs `k`
more identical failing rounds to reach the bound, the loop aborts exactly
`k` rounds later. -/
theorem C4_aux (exec : ToolCall → Except String String)
    (next nextTrunc : Nat → Except String ChatWithToolsResult)
    (calls : List ToolCall) (hne : calls ≠ [])
    (hexec : ∀ c ∈ calls, ∃ out, exec c = Except.ok out ∧ is_tool_failure out = true) :
    ∀ k fuel loops r,
      1 ≤ k →
      r + k = MAX_REPEAT_TOOL_LOOPS →
      loops + k ≤ MAX_TOOL_LOOPS →
      k ≤ fuel →
      (∀ n, loops ≤ n → n + 1 < loops + k →
        next n = Except.ok (ChatWithToolsResult.toolCalls calls)) →
      runToolLoopAux none exec next nextTrunc fuel
        (ChatWithToolsResult.toolCalls calls) loops
        (some (tool_call_signature calls)) r =
      LoopOutcome.abortedRepeat (loops + k) := by
  obtain ⟨results, hres, hfailm⟩ := runCalls_ok_all_failing exec calls hexec
  have hfail := hfailm hne
  intro k
  induction k with
  | zero => intro fuel loops r h1 _ _ _ _; omega
  | succ k ih =>
    intro fuel loops r _ hk hcap hfuel hnextH
    cases fuel with
    | zero => omega
    | succ fuel =>
      have hupd : update_repeat_loops
          (decide ((some (tool_call_signature calls) :
            Option (List (String × String))) = some (tool_call_signature calls)))
          (results.any (fun p => is_tool_failure p.2)) r = r + 1 := by
        simp [update_repeat_loops, hfail]
      cases k with
      | zero =>
        have habort := runToolLoopAux_step_repeat_abort exec next nextTrunc fuel
          loops r calls (some (tool_call_signature calls)) results
          (by omega) hres (by rw [hupd]; omega)
        simpa using habort
      | succ k' =>
        have hstep := runToolLoopAux_step_continue exec next nextTrunc fuel
          loops r calls (some (tool_call_signature calls)) results
          (ChatWithToolsResult.toolCalls calls) (by omega) hres
          (by rw [hupd]; omega) (hnextH loops (Nat.le_refl _) (by omega))
        rw [hstep, hupd]
        have hrec := ih fuel (loops + 1) (r + 1) (by omega) (by omega) (by omega)
          (by omega) (fun n hn1 hn2 => hnextH n (by omega) (by omega))
        have harr : loops + 1 + (k' + 1) = loops + (k' + 1 + 1) := by omega
        rw [harr] at hrec
        exact hrec

/-- C4 (amended): four consecutive rounds with identical `(tool name,
arguments)` signature, each reporting a tool failure, trigger the repeat
abort before a fifth attempt is executed (the counter counts *repeats*, so
three identical failing rounds alone do not abort); and any round that is
not an identical failing repeat resets the counter to zero. -/
theorem C4_repeat_failure_abort (exec : ToolCall → Except String String)
    (next nextTrunc : Nat → Except String ChatWithToolsResult)
    (calls : List ToolCall) (hne : calls ≠ [])
    (hexec : ∀ c ∈ calls, ∃ out, exec c = Except.ok out ∧ is_tool_failure out = true)
    (hnextH : ∀ n, n < 3 → next n = Except.ok (ChatWithToolsResult.toolCalls calls)) :
    run_tool_loop none exec next nextTrunc (ChatWithToolsResult.toolCalls calls) =
      LoopOutcome.abortedRepeat 4 ∧
    (∀ isRepeat hasFailure repeats, ¬ (isRepeat = true ∧ hasFailure = true) →
      update_repeat_loops isRepeat hasFailure repeats = 0) := by
  constructor
  · obtain ⟨results, hres, _⟩ := runCalls_ok_all_failing exec calls hexec
    have hupd0 : update_repeat_loops
        (decide ((none : Option (List (String × String))) =
          some (tool_call_signature calls)))
        (results.any (fun p => is_tool_failure p.2)) 0 = 0 := by
      simp [update_repeat_loops]
    unfold run_tool_loop
    rw [runToolLoopAux_step_continue exec next nextTrunc MAX_TOOL_LOOPS 0 0 calls
      none results (ChatWithToolsResult.toolCalls calls) (by decide) hres
      (by rw [hupd0]; decide) (hnextH 0 (by decide))]
    rw [hupd0]
    have hrec := C4_aux exec next nextTrunc calls hne hexec 3 MAX_TOOL_LOOPS 1 0
      (by decide) (by decide) (by decide) (by decide)
      (fun n hn1 hn2 => hnextH n (by omega))
    simpa using hrec
  · intro a b c h
    unfold update_repeat_loops
    rw [if_neg h]

theorem C4_repeat_failure_abort_witness :
    run_tool_loop none execFails nextAlwaysCalls nextTextOnly
        (ChatWithToolsResult.toolCalls [callA]) = LoopOutcome.abortedRepeat 4 ∧
    (∀ isRepeat hasFailure repeats, ¬ (isRepeat = true ∧ hasFailure = true) →
      update_repeat_loops isRepeat hasFailure repeats = 0) :=
  C4_repeat_failure_abort execFails nextAlwaysCalls nextTextOnly [callA]
    (by decide) (fun c _ => ⟨"TOOL_ERROR: boom", rfl, by decide⟩)
    (fun n _ => rfl)

/-- C4 counterexample: three consecutive identical failing rounds do *not*
trigger the abort — after them the loop continues, and a fourth model
response that is plain text ends the run in `done` after 3 rounds. -/
theorem C4_repeat_failure_abort_counterexample :
    run_tool_loop none execFails nextThreeRounds nextTextOnly
        (ChatWithToolsResult.toolCalls [callA]) = LoopOutcome.done "done" 3 := by
  decide


/-! ## Claim C5 -/

/-- C5: whenever the request's cancellation token is cancelled, every
suspension point (the cooperative check, the tool/model race, the retry
loop's await) yields the distinguished `REQUEST_CANCELLED` error rather than
a tool or model error; a cancelled result is never retried by the model
retry policy; and the whole tool loop short-circuits with that outcome. -/
theorem C5_cancellation_short_circuit :
    check_cancel (some true) = Except.error REQUEST_CANCELLED_ERROR ∧
    (∀ fut : Except String String,
      await_with_cancel true fut = Except.error REQUEST_CANCELLED_ERROR) ∧
    should_retry_model_error REQUEST_CANCELLED_ERROR = false ∧
    (∀ op : Nat → Except String ChatWithToolsResult,
      retry_with_cancel true op = Except.error REQUEST_CANCELLED_ERROR) ∧
    (∀ (exec : ToolCall → Except String String)
      (next nextTrunc : Nat → Except String ChatWithToolsResult)
      (first : ChatWithToolsResult),
      run_tool_loop (some true) exec next nextTrunc first =
        LoopOutcome.requestError REQUEST_CANCELLED_ERROR 0) := by
  refine ⟨rfl, fun fut => rfl, by decide, fun op => ?_, fun exec next nextTrunc first => ?_⟩
  · simp [retry_with_cancel, retryAux, await_with_cancel, MODEL_MAX_RETRIES]
  · simp [run_tool_loop, runToolLoopAux, check_cancel]

/-! ## Claim C10 -/

/-- From a state whose repeat counter is zero, a loop whose tool outputs are
never classified as failures can never end in the repeat abort: the counter
is reset every round. -/
theorem noRepeatAbort_aux (exec : ToolCall → Except String String)
    (next nextTrunc : Nat → Except String ChatWithToolsResult)
    (hexec : ∀ c, ∃ out, exec c = Except.ok out ∧ is_tool_failure out = false) :
    ∀ fuel result loops lastSig r,
      runToolLoopAux none exec next nextTrunc fuel result loops lastSig 0 ≠
        LoopOutcome.abortedRepeat r := by
  intro fuel
  induction fuel with
  | zero => intro result loops lastSig r; simp [runToolLoopAux]
  | succ fuel ih =>
    intro result loops lastSig r
    cases result with
    | text t => simp [runToolLoopAux, check_cancel]
    | toolCalls calls =>
      by_cases hcap : loops ≥ MAX_TOOL_LOOPS
      · simp [runToolLoopAux, check_cancel, hcap]
      · obtain ⟨results, hres, hany⟩ := runCalls_ok_no_failure exec hexec calls
        have hupd : update_repeat_loops
            (decide (lastSig = some (tool_call_signature calls)))
            (results.any (fun p => is_tool_failure p.2)) 0 = 0 := by
          simp [update_repeat_loops, hany]
        cases hmc : model_continue none next nextTrunc loops with
        | error e =>
          simp [runToolLoopAux, check_cancel, hcap, hres, hupd, hmc,
            MAX_REPEAT_TOOL_LOOPS]
        | ok value =>
          have hstep : runToolLoopAux none exec next nextTrunc (fuel + 1)
              (ChatWithToolsResult.toolCalls calls) loops lastSig 0 =
              runToolLoopAux none exec next nextTrunc fuel value (loops + 1)
                (some (tool_call_signature calls)) 0 := by
            simp [runToolLoopAux, check_cancel, hcap, hres, hupd, hmc,
              MAX_REPEAT_TOOL_LOOPS]
          rw [hstep]
          exact ih value (loops + 1) (some (tool_call_signature calls)) r

/-- C10: a tool output is classified as a failure iff it begins (after
leading whitespace) with the `TOOL_ERROR:` tag or its first line is an
`exit_code:` line with a nonzero parsed code; consequently the sandbox
denial message is classified as success, and a loop whose outputs are all
successes (such as repeated identical denied commands) never triggers the
repeat-failure abort. -/
theorem C10_failure_classification :
    (∀ output : String, is_tool_failure output = true ↔
      (startsWithStr (rustTrimStart output) TOOL_ERROR_TAG = true ∨
        ∃ code, parse_exit_code output = some code ∧ code ≠ 0)) ∧
    is_tool_failure "命令不在允许列表中" = false ∧
    (∀ (exec : ToolCall → Except String String)
      (next nextTrunc : Nat → Except String ChatWithToolsResult)
      (first : ChatWithToolsResult),
      (∀ c, ∃ out, exec c = Except.ok out ∧ is_tool_failure out = false) →
      ∀ r, run_tool_loop none exec next nextTrunc first ≠
        LoopOutcome.abortedRepeat r) := by
  refine ⟨?_, by decide, ?_⟩
  · intro output
    unfold is_tool_failure
    by_cases hpfx : startsWithStr (rustTrimStart output) TOOL_ERROR_TAG = true
    · simp [hpfx]
    · cases hparse : parse_exit_code output with
      | none => simp [hpfx, hparse]
      | some code => simp [hpfx, hparse]
  · intro exec next nextTrunc first hexec r
    exact noRepeatAbort_aux exec next nextTrunc hexec (MAX_TOOL_LOOPS + 1) first 0 none r

theorem C10_failure_classification_witness :
    run_tool_loop none execSucceeds nextTextOnly nextTextOnly
        (ChatWithToolsResult.text "hi") ≠ LoopOutcome.abortedRepeat 0 :=
  C10_failure_classification.2.2 execSucceeds nextTextOnly nextTextOnly
    (ChatWithToolsResult.text "hi")
    (fun c => ⟨"done", rfl, by decide⟩) 0


/-! ## Claim C6 -/

/-- C6: under a whitelist policy, a command whose leading token is not in
`allowed_commands` yields the denial message on the success channel (a tool
result fed back to the model), raises no request-level error, and never
reaches process execution. -/
theorem C6_denied_command_tool_result (access : ToolAccess) (args : BashArgs)
    (hmode : access.mode = ToolMode.whitelist)
    (hdenied : command_allowed access args.command = false) :
    run_command_tool access args =
      Except.ok (RunCommandAction.deniedCommand "命令不在允许列表中") ∧
    (∀ e, run_command_tool access args ≠ Except.error e) ∧
    (∀ cwd t,
      run_command_tool access args ≠ Except.ok (RunCommandAction.execute cwd t) ∧
      run_command_tool access args ≠ Except.ok (RunCommandAction.background cwd t)) := by
  have h1 : run_command_tool access args =
      Except.ok (RunCommandAction.deniedCommand "命令不在允许列表中") := by
    unfold run_command_tool
    rw [if_neg (by simp [hmode]), if_pos ⟨hmode, hdenied⟩]
  exact ⟨h1, fun e => by simp [h1], fun cwd t => ⟨by simp [h1], by simp [h1]⟩⟩

theorem C6_denied_command_tool_result_witness :
    run_command_tool accessWL argsNpm =
      Except.ok (RunCommandAction.deniedCommand "命令不在允许列表中") :=
  (C6_denied_command_tool_result accessWL argsNpm rfl (by decide)).1

/-! ## Claim C7 -/

/-- C7 (amended): for every authorized path, `Write(path, content)` followed
by `Read(path)` returns exactly `content` when the content's byte length is
at most `max_bytes`; content strictly longer than `max_bytes` is truncated
and the response states an omitted byte count equal to
`len(content) − max_bytes`.  (At exactly `max_bytes` the content is returned
whole: truncation requires `len > max_bytes`.) -/
theorem C7_write_read_roundtrip (fs : FileSystem) (access : ToolAccess)
    (p : List RawComp) (content : String) (m : Nat)
    (hauth : ∃ path, resolve_and_authorize_path access p = Except.ok path) :
    (content.utf8ByteSize ≤ m →
      read_file_tool (write_file_tool fs access ⟨p, content, none⟩).2 access
        ⟨p, some m⟩ = Except.ok content) ∧
    (content.utf8ByteSize > m →
      read_file_tool (write_file_tool fs access ⟨p, content, none⟩).2 access
        ⟨p, some m⟩ =
        Except.ok (takeUtf8Bytes content m ++ "\n\n[truncated " ++
          toString (content.utf8ByteSize - m) ++ " bytes]")) := by
  obtain ⟨path, hpath⟩ := hauth
  have hread : read_file_tool (write_file_tool fs access ⟨p, content, none⟩).2 access
      ⟨p, some m⟩ =
      (if content.utf8ByteSize > m then
        Except.ok (takeUtf8Bytes content m ++ "\n\n[truncated " ++
          toString (content.utf8ByteSize - m) ++ " bytes]")
      else Except.ok content) := by
    simp [write_file_tool, read_file_tool, hpath]
  constructor
  · intro hle
    rw [hread, if_neg (by omega)]
  · intro hgt
    rw [hread, if_pos hgt]

theorem C7_write_read_roundtrip_witness :
    read_file_tool (write_file_tool fsEmpty accessAA ⟨pRelF, "abc", none⟩).2 accessAA
      ⟨pRelF, some 5⟩ = Except.ok "abc" :=
  (C7_write_read_roundtrip fsEmpty accessAA pRelF "abc" 5 ⟨pResF, rfl⟩).1 (by decide)

/-- C7 counterexample: content whose byte length is exactly `max_bytes`
(here 3) is returned whole, with no truncation marker and no omitted-byte
count, contradicting "content at or above max_bytes is truncated". -/
theorem C7_write_read_roundtrip_counterexample :
    read_file_tool (write_file_tool fsEmpty accessAA ⟨pRelF, "abc", none⟩).2 accessAA
      ⟨pRelF, some 3⟩ = Except.ok "abc" ∧
    ("abc" : String) ≠ takeUtf8Bytes "abc" 3 ++ "\n\n[truncated 0 bytes]" :=
  ⟨rfl, by decide⟩


/-! ## Claim C8 -/

theorem prefix_append_drop {p s : List Char} (h : p.isPrefixOf s = true) :
    p ++ s.drop p.length = s := by
  obtain ⟨t, rfl⟩ := List.isPrefixOf_iff_prefix.mp h
  simp

theorem isPrefixOf_nil_false {p : List Char} (hp : p ≠ []) :
    p.isPrefixOf ([] : List Char) = false := by
  cases p with
  | nil => exact absurd rfl hp
  | cons a t => rfl

theorem replaceFirstL_self (s p : List Char) : replaceFirstL s p p = s := by
  induction s with
  | nil =>
    by_cases hp : p = []
    · simp [replaceFirstL, hp]
    · simp [replaceFirstL, hp, isPrefixOf_nil_false hp]
  | cons c rest ih =>
    by_cases hp : p = []
    · simp [replaceFirstL, hp]
    · by_cases hpre : p.isPrefixOf (c :: rest) = true
      · rw [replaceFirstL, if_neg hp, if_pos hpre]
        exact prefix_append_drop hpre
      · rw [replaceFirstL, if_neg hp, if_neg hpre]
        simpa using ih

theorem replaceAllL_self (s p : List Char) : replaceAllL s p p = s := by
  generalize hn : s.length = n
  induction n using Nat.strong_induction_on generalizing s with
  | _ n ih =>
    subst hn
    by_cases hp : p = []
    · subst hp
      cases s with
      | nil => simp [replaceAllL]
      | cons c rest =>
        rw [replaceAllL.eq_def]
        simpa using ih rest.length (by simp) rest rfl
    · by_cases hpre : p.isPrefixOf s = true
      · rw [replaceAllL.eq_def, dif_neg hp, if_pos hpre]
        have hlt : (s.drop p.length).length < s.length := by
          have hple := (List.isPrefixOf_iff_prefix.mp hpre).length_le
          have hppos : 0 < p.length := List.length_pos.mpr hp
          simp [List.length_drop]; omega
        rw [ih (s.drop p.length).length hlt (s.drop p.length) rfl]
        exact prefix_append_drop hpre
      · cases s with
        | nil => rw [replaceAllL.eq_def, dif_neg hp, if_neg hpre]
        | cons c rest =>
          rw [replaceAllL.eq_def, dif_neg hp, if_neg hpre]
          simpa using ih rest.length (by simp) rest rfl

theorem replaceFirstL_no_match (p new : List Char) :
    ∀ s, countMatchesL s p = 0 → replaceFirstL s p new = s := by
  intro s
  induction s with
  | nil =>
    intro h
    by_cases hp : p = []
    · subst hp; rw [countMatchesL.eq_def] at h; simp at h
    · simp [replaceFirstL, hp, isPrefixOf_nil_false hp]
  | cons c rest ih =>
    intro h
    by_cases hp : p = []
    · subst hp; rw [countMatchesL.eq_def] at h; simp at h
    · by_cases hpre : p.isPrefixOf (c :: rest) = true
      · rw [countMatchesL.eq_def, dif_neg hp, if_pos hpre] at h
        omega
      · have hc : countMatchesL rest p = 0 := by
          rw [countMatchesL.eq_def, dif_neg hp, if_neg hpre] at h
          exact h
        rw [replaceFirstL, if_neg hp, if_neg hpre]
        simpa using ih hc

theorem replaceAllL_no_match (p new : List Char) :
    ∀ s, countMatchesL s p = 0 → replaceAllL s p new = s := by
  intro s
  generalize hn : s.length = n
  induction n using Nat.strong_induction_on generalizing s with
  | _ n ih =>
    subst hn
    intro h
    by_cases hp : p = []
    · subst hp; rw [countMatchesL.eq_def] at h; simp at h
    · by_cases hpre : p.isPrefixOf s = true
      · rw [countMatchesL.eq_def, dif_neg hp, if_pos hpre] at h
        omega
      · cases s with
        | nil => rw [replaceAllL.eq_def, dif_neg hp, if_neg hpre]
        | cons c rest =>
          have hc : countMatchesL rest p = 0 := by
            rw [countMatchesL.eq_def, dif_neg hp, if_neg hpre] at h
            exact h
          rw [replaceAllL.eq_def, dif_neg hp, if_neg hpre]
          simpa using ih rest.length (by simp) rest rfl hc

/-- C8 (amended): Edit replaces all occurrences of `old` (or only the first
when `replace_all` is false) with `new` and reports the total number of
matches of `old` in the original content — equal to the substitutions
performed only in the replace-all case; an edit that leaves the content
unchanged (`old` absent, or `old = new`) reports "nothing matched" rather
than an error and leaves the file byte-for-byte unchanged. -/
theorem C8_edit_substitution (fs : FileSystem) (access : ToolAccess)
    (args : EditArgs) (path : List NComp) (content : String)
    (hauth : resolve_and_authorize_path access args.path = Except.ok path)
    (hfile : fs path = some content) :
    ((args.old = args.new ∨ strCountMatches content args.old = 0) →
      edit_file_tool fs access args = (Except.ok "未找到可替换内容", fs)) ∧
    (∀ updated,
      updated = (if args.replace_all.getD true then
        strReplaceAll content args.old args.new
      else strReplaceFirst content args.old args.new) →
      updated ≠ content →
      edit_file_tool fs access args =
        (Except.ok ("替换完成: " ++ toString (strCountMatches content args.old) ++ " 处"),
          fun q => if q = path then some updated else fs q)) := by
  constructor
  · intro hcase
    have hupd : (if args.replace_all.getD true then
        strReplaceAll content args.old args.new
      else strReplaceFirst content args.old args.new) = content := by
      rcases hcase with heq | hzero
      · rw [← heq]
        split
        · show String.mk (replaceAllL content.toList args.old.toList args.old.toList) = content
          rw [replaceAllL_self]
          rfl
        · show String.mk (replaceFirstL content.toList args.old.toList args.old.toList) = content
          rw [replaceFirstL_self]
          rfl
      · unfold strCountMatches at hzero
        split
        · show String.mk (replaceAllL content.toList args.old.toList args.new.toList) = content
          rw [replaceAllL_no_match _ _ _ hzero]
          rfl
        · show String.mk (replaceFirstL content.toList args.old.toList args.new.toList) = content
          rw [replaceFirstL_no_match _ _ _ hzero]
          rfl
    simp [edit_file_tool, hauth, hfile, hupd]
  · intro updated hdef hne
    simp only [edit_file_tool, hauth, hfile, ← hdef]
    rw [if_neg hne]

theorem C8_edit_substitution_witness :
    edit_file_tool fsAA accessAA ⟨pRelF, "x", "x", none⟩ =
      (Except.ok "未找到可替换内容", fsAA) :=
  (C8_edit_substitution fsAA accessAA ⟨pRelF, "x", "x", none⟩ pResF "aa"
    rfl rfl).1 (Or.inl rfl)

/-- C8 counterexample: on content `aa` with `old = "a"`, `new = "b"` and
`replace_all = false`, only the first occurrence is replaced (the file
becomes `ba`), yet the reported count is the total match count 2 — not the
single substitution performed. -/
theorem C8_edit_substitution_counterexample :
    (edit_file_tool fsAA accessAA ⟨pRelF, "a", "b", some false⟩).1 =
      Except.ok "替换完成: 2 处" ∧
    (edit_file_tool fsAA accessAA ⟨pRelF, "a", "b", some false⟩).2 pResF =
      some "ba" := by
  have h0 : countMatchesL [] ['a'] = 0 := by
    rw [countMatchesL.eq_def]; simp [List.isPrefixOf]
  have h1 : countMatchesL ['a'] ['a'] = 1 := by
    rw [countMatchesL.eq_def]; simp [List.isPrefixOf, h0]
  have h2c : countMatchesL ['a', 'a'] ['a'] = 2 := by
    rw [countMatchesL.eq_def]; simp [List.isPrefixOf, h1]
  have hcount : strCountMatches "aa" "a" = 2 := h2c
  have hres : resolve_and_authorize_path accessAA pRelF = Except.ok pResF := rfl
  have hfile : fsAA pResF = some "aa" := rfl
  have hne : strReplaceFirst "aa" "a" "b" ≠ "aa" := by decide
  constructor
  · simp only [edit_file_tool, hres, hfile]
    rw [if_neg (by simpa using hne)]
    rw [hcount]
    exact congrArg Except.ok (by decide)
  · rfl


/-! ## Claim C9 -/

/-- The first removal loop never touches the summary head: it only drops the
oldest retained recent messages. -/
theorem compress_loop1_shape (sys user : String) (target : Nat) :
    ∀ f loops x l, 128 - loops = f →
      ∃ k, compress_loop1 sys user target true loops (x :: l) = x :: l.drop k := by
  intro f
  induction f with
  | zero =>
    intro loops x l hf
    refine ⟨0, ?_⟩
    rw [compress_loop1.eq_def, if_neg (fun hcon => absurd hcon.2.2 (by omega))]
    simp
  | succ f ih =>
    intro loops x l hf
    by_cases hcond : estimate_history_tokens sys user (x :: l) > target ∧
        (x :: l).length > 4 ∧ loops < 128
    · have hlen : l.length > 3 := by
        have hl := hcond.2.1
        simp at hl
        omega
      cases l with
      | nil => simp at hlen
      | cons y l' =>
        have hidx : compressRemoveIdx true (x :: y :: l') = 1 := by
          unfold compressRemoveIdx
          rw [if_pos ⟨rfl, by simp⟩]
        obtain ⟨k', hk'⟩ := ih (loops + 1) x l' (by omega)
        refine ⟨k' + 1, ?_⟩
        rw [compress_loop1.eq_def, if_pos hcond, hidx]
        simpa using hk'
    · refine ⟨0, ?_⟩
      rw [compress_loop1.eq_def, if_neg hcond]
      simp

/-- The summary-shrinking loop only rewrites the head's content. -/
theorem compress_loop2_shape (sys user : String) (target : Nat) :
    ∀ limit (h : ChatHistoryMessage) l, ∃ s,
      compress_loop2 sys user target limit (h :: l) =
        (⟨h.role, s, h.tool_call_id, h.tool_calls⟩ : ChatHistoryMessage) :: l := by
  intro limit
  induction limit using Nat.strong_induction_on with
  | _ limit ih =>
    intro h l
    by_cases hcond : estimate_history_tokens sys user (h :: l) > target ∧ limit > 600
    · have hdec : limit * 3 / 4 < limit := by omega
      obtain ⟨s, hs⟩ := ih (limit * 3 / 4) hdec
        { h with content :=
            if (truncate_string h.content limit).2 then
              (truncate_string h.content limit).1 ++ "\n...(summary truncated)"
            else (truncate_string h.content limit).1 } l
      refine ⟨s, ?_⟩
      rw [compress_loop2.eq_def, if_pos hcond]
      simpa using hs
    · refine ⟨h.content, ?_⟩
      rw [compress_loop2.eq_def, if_neg hcond]

/-- The final removal loop also keeps the summary head, and on exit the
estimate is under the trigger or at most two messages remain. -/
theorem compress_loop3_shape (sys user : String) (trigger : Nat) :
    ∀ l (x : ChatHistoryMessage), ∃ k,
      compress_loop3 sys user trigger true (x :: l) = x :: l.drop k ∧
      (estimate_history_tokens sys user (x :: l.drop k) ≤ trigger ∨
        (x :: l.drop k).length ≤ 2) := by
  intro l
  generalize hn : l.length = n
  induction n using Nat.strong_induction_on generalizing l with
  | _ n ih =>
    subst hn
    intro x
    by_cases hcond : estimate_history_tokens sys user (x :: l) > trigger ∧
        (x :: l).length > 2
    · have hlen : l.length > 1 := by
        have hl := hcond.2
        simp at hl
        omega
      cases l with
      | nil => simp at hlen
      | cons y l' =>
        have hidx : compressRemoveIdx true (x :: y :: l') = 1 := by
          unfold compressRemoveIdx
          rw [if_pos ⟨rfl, by simp⟩]
        obtain ⟨k', hk', hpost⟩ := ih l'.length (by simp) l' rfl x
        refine ⟨k' + 1, ?_, ?_⟩
        · rw [compress_loop3.eq_def, dif_pos hcond, hidx]
          simpa using hk'
        · simpa using hpost
    · refine ⟨0, ?_, ?_⟩
      · rw [compress_loop3.eq_def, dif_neg hcond]
        simp
      · simp only [List.drop_zero]
        omega

/-- C9: history compression is the identity below the message-count floor
(`MIN_HISTORY_MESSAGES_BEFORE_COMPRESSION = 14`) and when the token estimate
does not exceed the trigger threshold; otherwise the result replaces the
oldest messages by a single synthetic assistant-role summary message
followed by a suffix of the 12 most recent messages kept verbatim, the
removal/shrinking loops ending under the trigger or at a structural floor. -/
theorem C9_history_compression (history : List ChatHistoryMessage)
    (sys user : String) (trigger target : Nat) :
    (history.length < MIN_HISTORY_MESSAGES_BEFORE_COMPRESSION →
      compress_history_if_needed (some history) sys user trigger target =
        some history) ∧
    (estimate_history_tokens sys user history ≤ trigger →
      compress_history_if_needed (some history) sys user trigger target =
        some history) ∧
    (history.length ≥ MIN_HISTORY_MESSAGES_BEFORE_COMPRESSION →
      estimate_history_tokens sys user history > trigger →
      ∃ result, compress_history_if_needed (some history) sys user trigger target =
          some result ∧
        (∃ s k, result = (⟨"assistant", s, none, none⟩ : ChatHistoryMessage) ::
          (history.drop (history.length - 12)).drop k) ∧
        (estimate_history_tokens sys user result ≤ trigger ∨ result.length ≤ 2)) := by
  refine ⟨?_, ?_, ?_⟩
  · intro hlt
    rw [compress_history_if_needed]
    by_cases h2 : history.length ≤ 2
    · rw [if_pos h2]
    · rw [if_neg h2, if_pos hlt]
  · intro hest
    rw [compress_history_if_needed]
    by_cases h2 : history.length ≤ 2
    · rw [if_pos h2]
    · rw [if_neg h2]
      by_cases hlt : history.length < MIN_HISTORY_MESSAGES_BEFORE_COMPRESSION
      · rw [if_pos hlt]
      · rw [if_neg hlt, if_pos hest]
  · intro hmin hest
    have h14 : 14 ≤ history.length := by
      simpa [MIN_HISTORY_MESSAGES_BEFORE_COMPRESSION] using hmin
    have hmin12 : min history.length 12 = 12 := Nat.min_eq_right (by omega)
    have hsum : history.take (history.length - 12) ≠ [] := by
      intro hemp
      have := congrArg List.length hemp
      simp [List.length_take] at this
      omega
    obtain ⟨k1, hk1⟩ := compress_loop1_shape sys user target 128 0
      (⟨"assistant", build_history_compression_summary
        (history.take (history.length - 12)) 6000, none, none⟩ : ChatHistoryMessage)
      (history.drop (history.length - 12)) rfl
    obtain ⟨s, hs⟩ := compress_loop2_shape sys user target 3000
      (⟨"assistant", build_history_compression_summary
        (history.take (history.length - 12)) 6000, none, none⟩ : ChatHistoryMessage)
      ((history.drop (history.length - 12)).drop k1)
    obtain ⟨k3, hk3, hpost⟩ := compress_loop3_shape sys user trigger
      ((history.drop (history.length - 12)).drop k1)
      (⟨(⟨"assistant", build_history_compression_summary
          (history.take (history.length - 12)) 6000, none, none⟩ :
            ChatHistoryMessage).role, s,
        (⟨"assistant", build_history_compression_summary
          (history.take (history.length - 12)) 6000, none, none⟩ :
            ChatHistoryMessage).tool_call_id,
        (⟨"assistant", build_history_compression_summary
          (history.take (history.length - 12)) 6000, none, none⟩ :
            ChatHistoryMessage).tool_calls⟩ : ChatHistoryMessage)
    have heq : compress_history_if_needed (some history) sys user trigger target =
        some ((⟨"assistant", s, none, none⟩ : ChatHistoryMessage) ::
          (((history.drop (history.length - 12)).drop k1).drop k3)) := by
      rw [compress_history_if_needed]
      rw [if_neg (by omega), if_neg (by omega), if_neg (by omega)]
      simp only [hmin12, decide_eq_true hsum, if_true, true_and]
      rw [hk1]
      rw [if_pos (List.cons_ne_nil _ _), hs, hk3]
    refine ⟨_, heq, ⟨s, k1 + k3, ?_⟩, ?_⟩
    · rw [List.drop_drop]
    · exact hpost

theorem C9_history_compression_witness :
    compress_history_if_needed (some [msgShort]) "sys" "hi" 100 80 =
      some [msgShort] :=
  (C9_history_compression [msgShort] "sys" "hi" 100 80).1 (by decide)

end OpenCowork
